import Mathlib

/-
Verification development for the httphead header-value parsing library.

Bytes are modelled as natural numbers (the source uses `byte`), byte
slices as `List Nat`, and the `nil` slice distinction (where observable)
as `Option (List Nat)`.  Every Go `for` loop is translated as a
fuel-consuming recursion; the wrappers pass `length + 1` fuel, which is
an upper bound on the number of iterations because each iteration of the
corresponding Go loop strictly consumes input.
-/

/-! ## Octet classifier (octet table, `octetTypes` and its `init`) -/

def octetChar : Nat := 1
def octetControl : Nat := 2
def octetSpace : Nat := 4
def octetSeparator : Nat := 8
def octetToken : Nat := 16

/-- The byte values enumerated by the `separators` case of the `init`
switch: `( ) < > @ , ; : " / [ ] ? = \x7b \x7d \\`. -/
def separatorBytes : List Nat :=
  [40, 41, 60, 62, 64, 44, 59, 58, 34, 47, 91, 93, 63, 61, 123, 125, 92]

/-- Bitmask predicates on an octet-type value, mirroring the `isChar`,
`isControl`, `isSeparator`, `isSpace`, `isToken` methods. -/
def isChar (t : Nat) : Bool := Nat.land t octetChar != 0
def isControl (t : Nat) : Bool := Nat.land t octetControl != 0
def isSeparator (t : Nat) : Bool := Nat.land t octetSeparator != 0
def isSpace (t : Nat) : Bool := Nat.land t octetSpace != 0
def isToken (t : Nat) : Bool := Nat.land t octetToken != 0

/-- The classification table: `octetTypes c` is the value the `init`
function stores in cell `c`.  The `init` loop runs `for c := 32; c < 256`,
so cells 0 through 31 keep their zero value; inside the loop the bits are
set exactly as in the source (char for `c <= 127`, control for
`0 <= c && c <= 31 || c == 127`, the separator switch, and the derived
token bit). -/
def octetTypes (c : Nat) : Nat :=
  if c < 32 then 0
  else
    let t := if c ≤ 127 then octetChar else 0
    let t := if c ≤ 31 ∨ c = 127 then Nat.lor t octetControl else t
    let t :=
      if c ∈ separatorBytes then Nat.lor t octetSeparator
      else if c = 32 ∨ c = 9 then Nat.lor t (Nat.lor octetSpace octetSeparator)
      else t
    if isChar t ∧ ¬ isControl t ∧ ¬ isSeparator t ∧ ¬ isSpace t
    then Nat.lor t octetToken else t

/-! ## Scanner (lexer.go) -/

inductive ItemType where
  | itemUndef
  | itemToken
  | itemSeparator
  | itemString
  | itemComment
  | itemOctet
deriving DecidableEq

structure Scanner where
  data : List Nat
  pos : Nat
  itemType : ItemType
  itemBytes : List Nat
  err : Bool
deriving DecidableEq

def NewScanner (data : List Nat) : Scanner :=
  ⟨data, 0, .itemUndef, [], false⟩

/-- First index of byte `c` in `l` (`bytes.IndexByte`), `none` for `-1`. -/
def indexOf? : List Nat → Nat → Option Nat
  | [], _ => none
  | x :: xs, c => if x = c then some 0 else (indexOf? xs c).map Nat.succ

/-- First index `i ≥ n` of byte `c` in `data`: `bytes.IndexByte(data[n:], c)`
converted back to an absolute index. -/
def indexOfFrom (data : List Nat) (c n : Nat) : Option Nat :=
  (indexOf? (data.drop n) c).map (· + n)

/-- Loop body of `SkipSpace`; each iteration drops 1 or 3 bytes, so
`length + 1` fuel always suffices. -/
def skipSpaceLoop : Nat → List Nat → Nat
  | 0, _ => 0
  | fuel + 1, p =>
    match p with
    | 13 :: 10 :: c :: rest =>
      if isSpace (octetTypes c) then skipSpaceLoop fuel rest + 3
      else if isSpace (octetTypes 13) then
        skipSpaceLoop fuel (10 :: c :: rest) + 1
      else 0
    | c :: rest =>
      if isSpace (octetTypes c) then skipSpaceLoop fuel rest + 1
      else 0
    | [] => 0

/-- SkipSpace skips spaces and lws-sequences from `p`, returning the
number of bytes skipped. -/
def SkipSpace (p : List Nat) : Nat := skipSpaceLoop (p.length + 1) p

/-- ScanToken: length and type of the next token of `p`; `none` models the
`-1` error return. -/
def ScanToken (p : List Nat) : Option (Nat × ItemType) :=
  match p with
  | [] => some (0, .itemUndef)
  | c :: rest =>
    if isSeparator (octetTypes c) then some (1, .itemSeparator)
    else if isToken (octetTypes c) then
      some (1 + (rest.takeWhile (fun b => isToken (octetTypes b))).length, .itemToken)
    else none

/-- Loop body of `ScanUntil`: find the next occurrence of `c` at or after
`n`; if it is preceded by a backslash step past it, otherwise return it. -/
def scanUntilLoop (data : List Nat) (c : Nat) : Nat → Nat → Option Nat
  | 0, _ => none
  | fuel + 1, n =>
    match indexOfFrom data c n with
    | none => none
    | some i =>
      if i = 0 ∨ data.getD (i - 1) 0 ≠ 92 then some i
      else scanUntilLoop data c fuel (i + 1)

/-- ScanUntil scans for the first non-escaped (in the source's sense:
not immediately preceded by a backslash) occurrence of `c` in `data`;
`none` models the `-1` return. -/
def ScanUntil (data : List Nat) (c : Nat) : Option Nat :=
  scanUntilLoop data c (data.length + 1) 0

/-- Inner loop of `ScanPairGreedy`: `for m < i` counting occurrences of
`open` in `data[m:i]`; returns the final `m` and the updated counter. -/
def scanPairInner (data : List Nat) (op : Nat) : Nat → Nat → Nat → Int → Nat × Int
  | 0, m, _, opened => (m, opened)
  | fuel + 1, m, i, opened =>
    if m < i then
      match (indexOf? ((data.drop m).take (i - m)) op).map (· + m) with
      | none => (m, opened)
      | some j => scanPairInner data op fuel (j + 1) i (opened + 1)
    else (m, opened)

/-- Outer loop of `ScanPairGreedy`.  `n` and `m` are absolute cursors; the
inner loop receives the relative index `i` exactly as in the source. -/
def scanPairLoop (data : List Nat) (op cl : Nat) : Nat → Nat → Nat → Int → Option Nat
  | 0, _, _, _ => none
  | fuel + 1, n, m, opened =>
    match indexOfFrom data cl n with
    | none => none
    | some n' =>
      let opened := if n' = 0 ∨ data.getD (n' - 1) 0 ≠ 92 then opened - 1 else opened
      let i := n' - n
      let r := scanPairInner data op (i + 1) m i opened
      if r.2 = 0 then some n'
      else scanPairLoop data op cl fuel (n' + 1) (n' + 1) r.2

/-- ScanPairGreedy scans for the complete pair of opening and closing
chars in a greedy manner (the first opening byte is not in `data`). -/
def ScanPairGreedy (data : List Nat) (op cl : Nat) : Option Nat :=
  scanPairLoop data op cl (data.length + 1) 0 0 1

/-- Copy loop of `RemoveByte` (`for i := j + 1; i < n;`), accumulating the
copied segments; `n` is `len(data) - 1`. -/
def removeByteLoop (data : List Nat) (c : Nat) : Nat → Nat → Nat → List Nat → List Nat
  | 0, _, _, acc => acc
  | fuel + 1, i, n, acc =>
    if i < n then
      match indexOfFrom data c i with
      | some j => removeByteLoop data c fuel (j + 1) n (acc ++ ((data.drop i).take (j - i)))
      | none => acc ++ data.drop i
    else acc

/-- RemoveByte returns `data` without `c`.  The boolean records whether
the copying path was taken (a fresh buffer was allocated); when `c` is
not present the input slice itself is returned with no allocation. -/
def RemoveByte (data : List Nat) (c : Nat) : List Nat × Bool :=
  match indexOf? data c with
  | none => (data, false)
  | some j =>
    (removeByteLoop data c (data.length + 1) (j + 1) (data.length - 1) (data.take j), true)

def Scanner.resetItem (l : Scanner) : Scanner :=
  { l with itemType := .itemUndef, itemBytes := [] }

/-- The private `next` method: reset the item, bail out on the sticky
error, skip leading space, and peek the next byte. -/
def Scanner.next (l : Scanner) : Scanner × Option Nat :=
  let l := l.resetItem
  if l.err then (l, none)
  else
    let l := { l with pos := l.pos + SkipSpace (l.data.drop l.pos) }
    if l.pos = l.data.length then (l, none)
    else (l, some (l.data.getD l.pos 0))

def Scanner.Peek (l : Scanner) : Nat :=
  if l.pos = l.data.length then 0 else l.data.getD l.pos 0

def Scanner.fetchOctet (l : Scanner) (c : Nat) : Scanner × Bool :=
  let i := l.pos
  let l :=
    match indexOfFrom l.data c l.pos with
    | none => { l with pos := l.data.length }
    | some j => { l with pos := j }
  ({ l with itemType := .itemOctet, itemBytes := (l.data.drop i).take (l.pos - i) }, true)

def Scanner.fetchToken (l : Scanner) : Scanner × Bool :=
  match ScanToken (l.data.drop l.pos) with
  | none => ({ l with err := true }, false)
  | some (n, t) =>
    ({ l with itemType := t, itemBytes := (l.data.drop l.pos).take n, pos := l.pos + n }, true)

def Scanner.fetchQuotedString (l : Scanner) : Scanner × Bool :=
  let l := { l with pos := l.pos + 1 }
  match ScanUntil (l.data.drop l.pos) 34 with
  | none => ({ l with err := true }, false)
  | some n =>
    ({ l with itemType := .itemString,
              itemBytes := (RemoveByte ((l.data.drop l.pos).take n) 92).1,
              pos := l.pos + n + 1 }, true)

def Scanner.fetchComment (l : Scanner) : Scanner × Bool :=
  let l := { l with pos := l.pos + 1 }
  match ScanPairGreedy (l.data.drop l.pos) 40 41 with
  | none => ({ l with err := true }, false)
  | some n =>
    ({ l with itemType := .itemComment,
              itemBytes := (RemoveByte ((l.data.drop l.pos).take n) 92).1,
              pos := l.pos + n + 1 }, true)

/-- Next scans for the next token, returning `true` on success and
`false` on error or EOF. -/
def Scanner.Next (l : Scanner) : Scanner × Bool :=
  match l.next with
  | (l', none) => (l', false)
  | (l', some c) =>
    if c = 34 then l'.fetchQuotedString
    else if c = 40 then l'.fetchComment
    else if c = 92 ∨ c = 41 then ({ l' with err := true }, false)
    else l'.fetchToken

def Scanner.NextOctet (l : Scanner) (c : Nat) : Scanner × Bool :=
  match l.next with
  | (l', none) => (l', false)
  | (l', some _) => l'.fetchOctet c

def Scanner.Skip (l : Scanner) (c : Nat) : Scanner :=
  if l.err then l
  else
    let l := l.resetItem
    match indexOfFrom l.data c l.pos with
    | none => { l with pos := l.data.length }
    | some j => { l with pos := j + 1 }

def Scanner.SkipEscaped (l : Scanner) (c : Nat) : Scanner :=
  if l.err then l
  else
    let l := l.resetItem
    match ScanUntil (l.data.drop l.pos) c with
    | none => { l with pos := l.data.length }
    | some i => { l with pos := l.pos + i + 1 }

/-! ## Options scanner (ScanOptions, httphead.go) -/

inductive Control where
  | ctlContinue
  | ctlBreak
  | ctlSkip
deriving DecidableEq

/-- One delivered callback tuple `(index, option, attribute, value)`;
`none` models a `nil` slice argument. -/
structure OTuple where
  idx : Nat
  name : List Nat
  attr : Option (List Nat)
  val : Option (List Nat)
deriving DecidableEq

def isComma (b : List Nat) : Prop := b = [44]
def isSemicolon (b : List Nat) : Prop := b = [59]
def isEquality (b : List Nat) : Prop := b = [61]

instance (b : List Nat) : Decidable (isComma b) := by unfold isComma; infer_instance
instance (b : List Nat) : Decidable (isSemicolon b) := by unfold isSemicolon; infer_instance
instance (b : List Nat) : Decidable (isEquality b) := by unfold isEquality; infer_instance

/-- Mutable state of the `ScanOptions` loop, plus the instrumentation
field `trace` recording every tuple the callback has been invoked with
(the callback receives that history in place of Go closure state). -/
structure OptSt where
  ok : Bool
  state : Nat
  index : Nat
  key : List Nat
  param : Option (List Nat)
  value : Option (List Nat)
  mustCall : Bool
  trace : List OTuple

/-- One switch dispatch of the `ScanOptions` loop body: from the lexed
item and the current state compute `(call, growIndex, updated state)`,
or `none` for the `return false` branches. -/
def branchStep (t : ItemType) (v : List Nat) (st : OptSt) : Option (Bool × Nat × OptSt) :=
  match t with
  | .itemToken =>
    match st.state with
    | 0 => some (false, 0, { st with key := v, state := 1, mustCall := true })
    | 1 => some (false, 0, { st with key := v, state := 1, mustCall := true })
    | 2 => some (false, 0, { st with param := some v, state := 3, mustCall := true })
    | 4 => some (true, 0, { st with value := some v, state := 1 })
    | _ => none
  | .itemString =>
    if st.state = 4 then some (true, 0, { st with value := some v, state := 1 }) else none
  | .itemSeparator =>
    if isComma v ∧ st.state = 0 then some (false, 0, st)
    else if isComma v ∧ st.state = 1 then
      if st.mustCall then some (true, 1, { st with state := 0 })
      else some (false, 0, { st with state := 0, index := st.index + 1 })
    else if isComma v ∧ st.state = 3 then some (true, 1, { st with state := 0 })
    else if isSemicolon v ∧ st.state = 1 then some (false, 0, { st with state := 2 })
    else if isSemicolon v ∧ st.state = 3 then some (true, 0, { st with state := 2 })
    else if isEquality v ∧ st.state = 3 then some (false, 0, { st with state := 4 })
    else none
  | _ => none

/-- The `for lexer.Next()` loop of `ScanOptions`.  Returns the trace of
delivered tuples, the well-formedness result, and whether the final
end-of-input `mustCall` flush ran.  The callback receives the list of
previously delivered tuples (its observable history) and the current
tuple. -/
def scanOptionsLoop (it : List OTuple → OTuple → Control) :
    Nat → Scanner → OptSt → List OTuple × Bool × Bool
  | 0, _, st => (st.trace, false, false)
  | fuel + 1, l, st =>
    match l.Next with
    | (l', false) =>
      if st.mustCall then
        (st.trace ++ [⟨st.index, st.key, st.param, st.value⟩], !l'.err, true)
      else (st.trace, st.ok && !l'.err, false)
    | (l', true) =>
      match branchStep l'.itemType l'.itemBytes st with
      | none => (st.trace, false, false)
      | some (call, growIndex, st') =>
        if call then
          let tup : OTuple := ⟨st.index, st'.key, st'.param, st'.value⟩
          match it st.trace tup with
          | .ctlBreak => (st.trace ++ [tup], true, false)
          | .ctlSkip =>
            scanOptionsLoop it fuel (l'.SkipEscaped 44)
              { st' with state := 0, ok := true, param := none, value := none,
                         mustCall := false, index := st.index + growIndex,
                         trace := st.trace ++ [tup] }
          | .ctlContinue =>
            scanOptionsLoop it fuel l'
              { st' with ok := true, param := none, value := none,
                         mustCall := false, index := st.index + growIndex,
                         trace := st.trace ++ [tup] }
        else scanOptionsLoop it fuel l' st'

/-- ScanOptions parses `values = 1#value`, `value = token *( ";" param )`,
`param = token [ "=" (token | quoted-string) ]`, invoking the callback
per decoded tuple.  Result: (delivered tuples, well-formed flag, whether
the final flush ran). -/
def ScanOptions (it : List OTuple → OTuple → Control) (data : List Nat) :
    List OTuple × Bool × Bool :=
  scanOptionsLoop it (data.length + 1) (NewScanner data)
    ⟨false, 0, 0, [], none, none, false, []⟩

/-! ## Cookie scanner (cookie.go) -/

/-- stripQuotes reads `bts[0]` and `bts[len-1]` unconditionally; `none`
models the out-of-bounds slice accesses the source performs when the
value is empty (read of `bts[0]`) or is the single byte `"` (the slice
expression `bts[1:0]`). -/
def stripQuotes (bts : List Nat) : Option (List Nat) :=
  if bts.length = 0 then none
  else
    let last := bts.length - 1
    if bts.getD 0 0 = 34 ∧ bts.getD last 0 = 34 then
      if 1 ≤ last then some ((bts.drop 1).take (last - 1)) else none
    else some bts

/-- ValidCookieValue reports whether the value consists of valid RFC6265
value octets, using the octet classification table. -/
def ValidCookieValue (value : List Nat) : Bool :=
  value.all fun c =>
    !(isControl (octetTypes c)) && !(isSpace (octetTypes c)) &&
    !(c = 34 ∨ c = 59 ∨ c = 92 ∨ c = 44 : Bool) && decide (c < 0x7f)

/-- The `for lexer.Next()` loop of `ScanCookie`.  States: 0 = key,
1 = beforeKey, 2 = value.  The result records the pairs passed to the
callback; the outer `Option` is `none` when `stripQuotes` performs an
out-of-bounds access (a run-time panic in the source). -/
def scanCookieLoop (validate : Bool) (it : List Nat → List Nat → Bool) :
    Nat → Scanner → List Nat → Nat → List (List Nat × List Nat) →
    Option (List (List Nat × List Nat) × Bool)
  | 0, _, _, _, acc => some (acc, false)
  | fuel + 1, l, key, state, acc =>
    match l.Next with
    | (_, false) => some (acc, state = 1)
    | (l', true) =>
      match l'.itemType with
      | .itemToken =>
        if state ≠ 0 then some (acc, false)
        else scanCookieLoop validate it fuel l' l'.itemBytes 2 acc
      | .itemSeparator =>
        if state = 1 then
          if ¬ isSemicolon l'.itemBytes then some (acc, false)
          else if l'.Peek ≠ 32 then some (acc, false)
          else scanCookieLoop validate it fuel l' key 0 acc
        else if state ≠ 2 ∨ ¬ isEquality l'.itemBytes then some (acc, false)
        else
          match l'.NextOctet 59 with
          | (_, false) => some (acc, false)
          | (l'', true) =>
            match stripQuotes l''.itemBytes with
            | none => none
            | some value =>
              if validate ∧ ¬ ValidCookieValue value then some (acc, false)
              else if ¬ it key value then some (acc ++ [(key, value)], true)
              else scanCookieLoop validate it fuel l'' key 1 (acc ++ [(key, value)])
      | _ => scanCookieLoop validate it fuel l' key state acc
  
/-- ScanCookie maps data to the key-value pairs of a Cookie header value.
`none` models a run-time panic (out-of-bounds access in `stripQuotes`). -/
def ScanCookie (data : List Nat) (validate : Bool) (it : List Nat → List Nat → Bool) :
    Option (List (List Nat × List Nat) × Bool) :=
  scanCookieLoop validate it (data.length + 1) (NewScanner data) [] 0 []

/-! ## Parameter multimap (Parameters, httphead.go) -/

structure PPair where
  key : List Nat
  value : List Nat
deriving DecidableEq

/-- The Parameters struct: `arr` models the occupied prefix `arr[:pos]`
of the inline 8-cell array, `dyn` the growable spill slice (`nil` as
`none`).  The `bytesCount` field mirrors the `bytes` counter. -/
structure Parameters where
  pos : Nat
  bytesCount : Nat
  arr : List PPair
  dyn : Option (List PPair)
deriving DecidableEq

def Parameters.empty : Parameters := ⟨0, 0, [], none⟩

/-- The private `data` accessor: the spill slice if present, else the
occupied prefix of the inline array. -/
def Parameters.dataL (p : Parameters) : List PPair :=
  match p.dyn with
  | some l => l
  | none => p.arr.take p.pos

/-- Set appends a pair: into the inline array while `pos < 8`, otherwise
into the spill slice, creating it from the inline array on first spill. -/
def Parameters.Set (p : Parameters) (key value : List Nat) : Parameters :=
  let p := { p with bytesCount := p.bytesCount + key.length + value.length }
  if p.pos < 8 then { p with arr := p.arr ++ [⟨key, value⟩], pos := p.pos + 1 }
  else
    match p.dyn with
    | none => { p with dyn := some (p.arr ++ [⟨key, value⟩]) }
    | some l => { p with dyn := some (l ++ [⟨key, value⟩]) }

def buildParams (ps : List PPair) : Parameters :=
  ps.foldl (fun a x => a.Set x.key x.value) Parameters.empty

/-- Visit of the `ForEach` loop: the pairs passed to the callback, in
order, stopping after the first pair for which the callback returns
false. -/
def forEachVisit (cb : PPair → Bool) : List PPair → List PPair
  | [] => []
  | x :: xs => if cb x then x :: forEachVisit cb xs else [x]

def Parameters.ForEachList (p : Parameters) (cb : PPair → Bool) : List PPair :=
  forEachVisit cb p.dataL

/-- Lexicographic byte-string comparison, mirroring `bytes.Compare`. -/
def bytesCmp : List Nat → List Nat → Ordering
  | [], [] => .eq
  | [], _ :: _ => .lt
  | _ :: _, [] => .gt
  | a :: as, b :: bs => if a < b then .lt else if b < a then .gt else bytesCmp as bs

/-- The sort predicate of the `pairs` sort interface:
`bytes.Compare(p[a].key, p[b].key) == -1`. -/
def pairLess (a b : PPair) : Bool := decide (bytesCmp a.key b.key = .lt)

/-- Insert a pair into a key-sorted list, after any equal keys. -/
def insertPair (x : PPair) : List PPair → List PPair
  | [] => [x]
  | y :: ys => if pairLess x y then x :: y :: ys else y :: insertPair x ys

/-- Key-sort of a pair slice.  `sort.Sort(pairs(...))` is an in-place
comparison sort using only `pairLess`; for the slice sizes appearing in
this development it is the (stable) insertion sort, which this left
fold reproduces exactly. -/
def sortPairs (l : List PPair) : List PPair :=
  l.foldl (fun acc x => insertPair x acc) []

/-- The element-wise comparison loop at the end of `Equal`. -/
def pairListEq : List PPair → List PPair → Bool
  | [], [] => true
  | x :: xs, y :: ys =>
    if x.key = y.key ∧ x.value = y.value then pairListEq xs ys else false
  | _, _ => false

/-- Sorting a `Parameters` value receiver sorts the shared spill slice in
place (observable by the caller), while inline storage is only a local
copy of the receiver (not observable).  This maps the post-call state of
an `Equal` operand. -/
def sortedOperand (p : Parameters) (s : List PPair) : Parameters :=
  match p.dyn with
  | some _ => { p with dyn := some s }
  | none => p

/-- Equal compares two multimaps as in the source: both spilled or both
inline, equal lengths, then element-wise comparison of the key-sorted
data slices.  Besides the boolean it returns the post-call states of the
two operands (the sort mutates a shared spill slice). -/
def Parameters.equalFull (a b : Parameters) : Bool × Parameters × Parameters :=
  if (a.dyn.isNone ∧ b.dyn.isNone) ∨ (a.dyn.isSome ∧ b.dyn.isSome) then
    if a.dataL.length ≠ b.dataL.length then (false, a, b)
    else
      let sa := sortPairs a.dataL
      let sb := sortPairs b.dataL
      (pairListEq sa sb, sortedOperand a sa, sortedOperand b sb)
  else (false, a, b)

def Parameters.Equal (a b : Parameters) : Bool := (a.equalFull b).1

/-! ## Scanner operations as data (for the sticky-error invariant) -/

inductive ScanOp where
  | opNext
  | opNextOctet (c : Nat)
  | opSkip (c : Nat)
  | opSkipEscaped (c : Nat)

/-- Apply one scanner operation; the boolean is the operation's return
value (`false` for the `Skip` operations, which return nothing). -/
def applyOp : ScanOp → Scanner → Scanner × Bool
  | .opNext, l => l.Next
  | .opNextOctet c, l => l.NextOctet c
  | .opSkip c, l => (l.Skip c, false)
  | .opSkipEscaped c, l => (l.SkipEscaped c, false)

def runOps (l : Scanner) (ops : List ScanOp) : Scanner :=
  ops.foldl (fun l op => (applyOp op l).1) l

/-! ## Spec-side definitions for quoted-string termination -/

/-- Number of consecutive backslashes immediately preceding index `i`. -/
def backslashRun (data : List Nat) : Nat → Nat
  | 0 => 0
  | i + 1 => if data.getD i 0 = 92 then backslashRun data i + 1 else 0

def natRange (s : Nat) : Nat → List Nat
  | 0 => []
  | n + 1 => s :: natRange (s + 1) n

/-- The claimed termination rule, written from the claim's words: the
first closing byte preceded by an even number (including zero) of
consecutive backslashes. -/
def scanUntilClaimSpec (data : List Nat) (c : Nat) : Option Nat :=
  (natRange 0 data.length).find? fun i =>
    decide (data.getD i 0 = c) && decide (backslashRun data i % 2 = 0)

/-- The amended termination rule: the first closing byte that is not
immediately preceded by a backslash. -/
def unescapedHit (data : List Nat) (c i : Nat) : Bool :=
  decide (data.getD i 0 = c) && (decide (i = 0) || decide (data.getD (i - 1) 0 ≠ 92))

def scanUntilAmendedSpec (data : List Nat) (c : Nat) : Option Nat :=
  (natRange 0 data.length).find? (unescapedHit data c)

/-! ## Spec-modelled configurable cookie scanner -/

/-- Token byte per the specification glossary: US-ASCII, non-control,
non-separator, non-space. -/
def specTokenChar (c : Nat) : Bool :=
  decide (33 ≤ c) && decide (c ≤ 126) && !(separatorBytes.contains c)

/-- Modelled from the spec: quote stripping of the configurable cookie
scanner — "if the value is wrapped in exactly one matching pair of
double quotes, the quotes are stripped". -/
def stripQuotesSpec (v : List Nat) : List Nat :=
  if 2 ≤ v.length ∧ v.headD 0 = 34 ∧ v.getLastD 0 = 34 then
    (v.drop 1).take (v.length - 2)
  else v

/-- Modelled from the spec: cookie value-octet validation — "rejects
control characters, space, `"`, `;`, `\`, `,`, and any byte ≥ 0x7F". -/
def validCookieValueSpec (v : List Nat) : Bool :=
  v.all fun c =>
    decide (33 ≤ c) && decide (c ≤ 126) && !(c == 34 || c == 59 || c == 92 || c == 44)

/-- Modelled from the spec: the configurable strict/lenient cookie
scanner (the `CookieScanner` implementation is not present in the
sources, only its tests; this follows section 4.5 of the spec).  Grammar
`cookie-pair *( ";" SP cookie-pair )`.  Strict mode fails the whole
parse on a malformed name or value, on a missing space after `;`, and on
a trailing `;`; lenient mode skips the malformed pair forward to the
next `;` and tolerates a missing space.  Values are unquoted and
validated as cookie octets. -/
def cookiePairsLoop (strict : Bool) :
    Nat → List Nat → List (List Nat × List Nat) → List (List Nat × List Nat) × Bool
  | 0, _, acc => (acc, false)
  | fuel + 1, data, acc =>
    let rest0 := data.dropWhile (fun c => c == 32)
    if rest0 = [] then (acc, true)
    else
      let name := rest0.takeWhile specTokenChar
      let rest1 := rest0.drop name.length
      if name = [] ∨ rest1.headD 0 ≠ 61 then
        if strict then (acc, false)
        else
          match rest0.dropWhile (fun c => c != 59) with
          | [] => (acc, true)
          | _ :: rest3 => cookiePairsLoop strict fuel rest3 acc
      else
        let afterEq := rest1.drop 1
        let rawVal := afterEq.takeWhile (fun c => c != 59)
        let rest2 := afterEq.drop rawVal.length
        let value := stripQuotesSpec rawVal
        if validCookieValueSpec value then
          let acc2 := acc ++ [(name, value)]
          match rest2 with
          | [] => (acc2, true)
          | _ :: rest3 =>
            if strict ∧ rest3.headD 0 ≠ 32 then (acc2, false)
            else cookiePairsLoop strict fuel rest3 acc2
        else
          if strict then (acc, false)
          else
            match rest2 with
            | [] => (acc, true)
            | _ :: rest3 => cookiePairsLoop strict fuel rest3 acc

/-- Modelled from the spec: entry point of the configurable cookie
scanner; `strict = false` is the default (lenient) policy. -/
def cookiePairsScan (strict : Bool) (data : List Nat) :
    List (List Nat × List Nat) × Bool :=
  cookiePairsLoop strict (data.length + 1) data []

/-! ## Concrete callbacks and inputs used by the claim theorems -/

def cbContinueAll : List OTuple → OTuple → Control := fun _ _ => .ctlContinue

def cbBreakAll : List OTuple → OTuple → Control := fun _ _ => .ctlBreak

/-- The tuple `(0, foo, a, 1)` at which the C2 callback returns Skip. -/
def fooA1Tuple : OTuple := ⟨0, [102, 111, 111], some [97], some [49]⟩

/-- Callback returning Skip exactly on `(0, foo, a, 1)` and Continue on
every other tuple. -/
def cbSkipAtFooA1 : List OTuple → OTuple → Control :=
  fun _ t => if t = fooA1Tuple then .ctlSkip else .ctlContinue

def cbCookieTrue : List Nat → List Nat → Bool := fun _ _ => true

def cbPairTrue : PPair → Bool := fun _ => true

/-- Nine pairs with strictly descending single-byte keys; inserting them
spills a `Parameters` value to its growable store. -/
def descKeys9 : List PPair :=
  [⟨[57], [48]⟩, ⟨[56], [48]⟩, ⟨[55], [48]⟩, ⟨[54], [48]⟩, ⟨[53], [48]⟩,
   ⟨[52], [48]⟩, ⟨[51], [48]⟩, ⟨[50], [48]⟩, ⟨[49], [48]⟩]

/-! ## Claim theorems: concrete evaluations -/

/-- C1: for the input `foo;a=1;b=2,bar;z,baz` and a callback that always
returns Continue, ScanOptions delivers exactly the tuples
`(0,foo,a,1) (0,foo,b,2) (1,bar,z,∅) (2,baz,∅,∅)` in that order and
returns true; the index increments exactly once per top-level
comma-separated value, never per parameter. -/
theorem c1_options_trace :
    ScanOptions cbContinueAll
      [102, 111, 111, 59, 97, 61, 49, 59, 98, 61, 50, 44, 98, 97, 114, 59, 122, 44, 98, 97, 122] =
      ([⟨0, [102, 111, 111], some [97], some [49]⟩,
        ⟨0, [102, 111, 111], some [98], some [50]⟩,
        ⟨1, [98, 97, 114], some [122], none⟩,
        ⟨2, [98, 97, 122], none, none⟩], true, true) := by
  decide

/-- C2 counterexample: on `foo;a=1;b=2,bar;c=3` with a callback that
skips at `(0,foo,a,1)`, the one further delivered tuple is
`(0,bar,c,3)`, not the claimed `(1,bar,c,3)`: the skip consumes the
top-level comma, so the index is not advanced for the next key. -/
theorem c2_skip_index_counterexample :
    (ScanOptions cbSkipAtFooA1
        [102, 111, 111, 59, 97, 61, 49, 59, 98, 61, 50, 44, 98, 97, 114, 59, 99, 61, 51]).1 =
      [⟨0, [102, 111, 111], some [97], some [49]⟩, ⟨0, [98, 97, 114], some [99], some [51]⟩] ∧
    [OTuple.mk 0 [98, 97, 114] (some [99]) (some [51])] ≠
      [OTuple.mk 1 [98, 97, 114] (some [99]) (some [51])] := by
  decide

/-- C2 amended: for `foo;a=1;b=2,bar;c=3`, a callback returning Skip on
`(0,foo,a,1)` and Continue otherwise receives exactly one further tuple,
`(0,bar,c,3)`, and the parse is reported well-formed: Skip suppresses
all remaining callbacks for the current key, but because the skip scans
past the top-level comma the index does not advance for the next key
(`bar` also gets index 0). -/
theorem c2_skip_behaviour :
    ScanOptions cbSkipAtFooA1
      [102, 111, 111, 59, 97, 61, 49, 59, 98, 61, 50, 44, 98, 97, 114, 59, 99, 61, 51] =
      ([⟨0, [102, 111, 111], some [97], some [49]⟩,
        ⟨0, [98, 97, 114], some [99], some [51]⟩], true, false) := by
  decide

/-- C3: under the spec-modelled configurable cookie scanner, the lenient
(default) policy on `foo=bar; bar=baz` yields the pairs `(foo,bar)` and
`(bar,baz)` and reports well-formed; the Strict policy on
`foo=bar;bar=baz` (missing space after the `;`) yields only `(foo,bar)`
and reports not well-formed. -/
theorem c3_cookie_policies :
    cookiePairsScan false
        [102, 111, 111, 61, 98, 97, 114, 59, 32, 98, 97, 114, 61, 98, 97, 122] =
      ([([102, 111, 111], [98, 97, 114]), ([98, 97, 114], [98, 97, 122])], true) ∧
    cookiePairsScan true
        [102, 111, 111, 61, 98, 97, 114, 59, 98, 97, 114, 61, 98, 97, 122] =
      ([([102, 111, 111], [98, 97, 114])], false) := by
  decide

/-- C4 evaluation at the failing inputs: because the table `init` loop
starts at byte 32, bytes 0 through 31 receive no classification at all —
horizontal tab (9) is neither space nor separator nor char, and the
bytes 0..31 are not control — contradicting both the claim and the RFC
2616 definitions quoted in the source's own doc comment (the loop's
`0 <= c && c <= 31` test and its `'\t'` case are dead code).  Bytes from
32 up are classified as the claim states (space 32, control 127,
separator and token samples included). -/
theorem c4_octet_table_eval :
    octetTypes 9 = 0 ∧
    isSpace (octetTypes 9) = false ∧
    isSeparator (octetTypes 9) = false ∧
    isChar (octetTypes 9) = false ∧
    isControl (octetTypes 9) = false ∧
    isChar (octetTypes 0) = false ∧
    isControl (octetTypes 0) = false ∧
    isControl (octetTypes 13) = false ∧
    isSpace (octetTypes 32) = true ∧
    isControl (octetTypes 127) = true ∧
    isSeparator (octetTypes 59) = true ∧
    isToken (octetTypes 97) = true := by
  decide

/-- C10 evaluation at the failing input: on `foo=;` the scanner passes
the empty value slice to `stripQuotes`, whose unconditional read of
`bts[0]` is out of bounds — modelled as the `none` (panic) result — so
ScanCookie does not return a boolean for this input. -/
theorem c10_scancookie_oob :
    ScanCookie [102, 111, 111, 61, 59] false cbCookieTrue = none := by
  decide

/-- C6 counterexample: two multimaps built from the same multiset of
pairs `(k,1),(k,2)` in the two insertion orders compare unequal, because
`Equal` sorts by key only and duplicate keys keep their (different)
per-operand value order. -/
theorem c6_equal_counterexample :
    ([⟨[107], [49]⟩, ⟨[107], [50]⟩] : List PPair).Perm [⟨[107], [50]⟩, ⟨[107], [49]⟩] ∧
    Parameters.Equal (buildParams [⟨[107], [49]⟩, ⟨[107], [50]⟩])
      (buildParams [⟨[107], [50]⟩, ⟨[107], [49]⟩]) = false := by
  constructor
  · exact List.Perm.swap _ _ _
  · decide

/-- C7 counterexample: for a spilled multimap (9 pairs, descending keys)
the `Equal` call sorts the shared spill slice in place, so the sequence
observed via ForEach after the call differs from the one before it. -/
theorem c7_equal_mutates_counterexample :
    Parameters.ForEachList ((buildParams descKeys9).equalFull (buildParams descKeys9)).2.1
        cbPairTrue ≠
      Parameters.ForEachList (buildParams descKeys9) cbPairTrue := by
  decide

/-- C9 counterexample: on input `bar)` (a lexer error after the bare key)
with a callback that always returns Break, the callback returns Break on
the delivered tuple `(0,bar,∅,∅)` — the end-of-input flush — yet
ScanOptions returns false, because the flush ignores the callback's
control value and the result is anded with the error flag. -/
theorem c9_break_counterexample :
    ScanOptions cbBreakAll [98, 97, 114, 41] =
      ([⟨0, [98, 97, 114], none, none⟩], false, true) ∧
    cbBreakAll [] ⟨0, [98, 97, 114], none, none⟩ = .ctlBreak := by
  constructor
  · decide
  · rfl

/-! ## Sticky error flag -/

theorem resetItem_err (l : Scanner) : l.resetItem.err = l.err := rfl

theorem resetItem_pos (l : Scanner) : l.resetItem.pos = l.pos := rfl

theorem next_err_none (l : Scanner) (h : l.err = true) :
    l.next = (l.resetItem, none) := by
  simp [Scanner.next, Scanner.resetItem, h]

theorem applyOp_err (op : ScanOp) (l : Scanner) (h : l.err = true) :
    (applyOp op l).1.pos = l.pos ∧ (applyOp op l).1.err = true ∧ (applyOp op l).2 = false := by
  cases op <;>
    simp [applyOp, Scanner.Next, Scanner.NextOctet, Scanner.Skip, Scanner.SkipEscaped,
      next_err_none l h, Scanner.resetItem, h]

theorem runOps_err (ops : List ScanOp) (l : Scanner) (h : l.err = true) :
    (runOps l ops).pos = l.pos ∧ (runOps l ops).err = true := by
  induction ops generalizing l with
  | nil => exact ⟨rfl, h⟩
  | cons op ops ih =>
    have hs := applyOp_err op l h
    have := ih (applyOp op l).1 hs.2.1
    refine ⟨?_, this.2⟩
    rw [runOps] at this ⊢
    rw [List.foldl_cons]
    exact this.1.trans hs.1

/-- C8: once the sticky error flag is set, any sequence of scanner
operations leaves the cursor where it was and keeps the flag set, and
whatever operation is applied next returns false and does not move the
cursor — so no item is ever yielded again for the remainder of the
scanner's lifetime. -/
theorem c8_sticky_error (l : Scanner) (h : l.err = true)
    (ops : List ScanOp) (op : ScanOp) :
    (runOps l ops).pos = l.pos ∧ (runOps l ops).err = true ∧
    (applyOp op (runOps l ops)).2 = false ∧
    (applyOp op (runOps l ops)).1.pos = l.pos := by
  have hr := runOps_err ops l h
  have hs := applyOp_err op (runOps l ops) hr.2
  exact ⟨hr.1, hr.2, hs.2.2, hs.1.trans hr.1⟩

/-- C8 witness: a concrete errored scanner run through a concrete
operation sequence keeps its cursor at 1, stays errored, and the next
operation returns false. -/
theorem c8_sticky_error_witness :
    (Scanner.mk [97, 44, 98] 1 .itemUndef [] true).err = true ∧
    ((runOps (Scanner.mk [97, 44, 98] 1 .itemUndef [] true)
        [.opNext, .opSkip 44, .opSkipEscaped 59]).pos = 1 ∧
      (runOps (Scanner.mk [97, 44, 98] 1 .itemUndef [] true)
        [.opNext, .opSkip 44, .opSkipEscaped 59]).err = true ∧
      (applyOp (.opNextOctet 59) (runOps (Scanner.mk [97, 44, 98] 1 .itemUndef [] true)
        [.opNext, .opSkip 44, .opSkipEscaped 59])).2 = false ∧
      (applyOp (.opNextOctet 59) (runOps (Scanner.mk [97, 44, 98] 1 .itemUndef [] true)
        [.opNext, .opSkip 44, .opSkipEscaped 59])).1.pos = 1) :=
  ⟨rfl, c8_sticky_error (Scanner.mk [97, 44, 98] 1 .itemUndef [] true) rfl
    [.opNext, .opSkip 44, .opSkipEscaped 59] (.opNextOctet 59)⟩

/-! ## Equal does not disturb inline operands -/

theorem sortedOperand_of_dyn_none (p : Parameters) (s : List PPair) (h : p.dyn = none) :
    sortedOperand p s = p := by
  unfold sortedOperand
  rw [h]

theorem equalFull_frame (a b : Parameters) (h : a.dyn = none ∨ b.dyn = none) :
    (a.equalFull b).2.1 = a ∧ (a.equalFull b).2.2 = b := by
  unfold Parameters.equalFull
  split
  next hg =>
    split
    next => exact ⟨rfl, rfl⟩
    next =>
      rcases hg with ⟨ha, hb⟩ | ⟨ha, hb⟩
      · exact ⟨sortedOperand_of_dyn_none a _ (Option.isNone_iff_eq_none.mp ha),
          sortedOperand_of_dyn_none b _ (Option.isNone_iff_eq_none.mp hb)⟩
      · rcases h with h | h
        · rw [h] at ha; exact absurd ha (by simp)
        · rw [h] at hb; exact absurd hb (by simp)
  next => exact ⟨rfl, rfl⟩

/-- C7 amended: as long as at least one operand's storage is inline (not
spilled to the growable store), an `Equal` call leaves the stored pair
sequence of both operands unchanged, so the sequence observed via
ForEach after the call is identical to the one before it.  (When both
operands are spilled, the call sorts the shared spill slices in place —
see the counterexample.) -/
theorem c7_equal_frame (a b : Parameters) (h : a.dyn = none ∨ b.dyn = none)
    (cb : PPair → Bool) :
    (a.equalFull b).2.1 = a ∧ (a.equalFull b).2.2 = b ∧
    Parameters.ForEachList (a.equalFull b).2.1 cb = a.ForEachList cb ∧
    Parameters.ForEachList (a.equalFull b).2.2 cb = b.ForEachList cb := by
  have hf := equalFull_frame a b h
  exact ⟨hf.1, hf.2, by rw [hf.1], by rw [hf.2]⟩

/-- C7 witness: two concrete inline multimaps are returned untouched by
an `Equal` call, with identical ForEach observations. -/
theorem c7_equal_frame_witness :
    (buildParams [⟨[97], [49]⟩]).dyn = none ∧
    (((buildParams [⟨[97], [49]⟩]).equalFull (buildParams [⟨[98], [50]⟩])).2.1 =
        buildParams [⟨[97], [49]⟩] ∧
      ((buildParams [⟨[97], [49]⟩]).equalFull (buildParams [⟨[98], [50]⟩])).2.2 =
        buildParams [⟨[98], [50]⟩] ∧
      Parameters.ForEachList
          ((buildParams [⟨[97], [49]⟩]).equalFull (buildParams [⟨[98], [50]⟩])).2.1 cbPairTrue =
        (buildParams [⟨[97], [49]⟩]).ForEachList cbPairTrue ∧
      Parameters.ForEachList
          ((buildParams [⟨[97], [49]⟩]).equalFull (buildParams [⟨[98], [50]⟩])).2.2 cbPairTrue =
        (buildParams [⟨[98], [50]⟩]).ForEachList cbPairTrue) :=
  ⟨by decide,
    c7_equal_frame (buildParams [⟨[97], [49]⟩]) (buildParams [⟨[98], [50]⟩])
      (Or.inl (by decide)) cbPairTrue⟩

/-! ## Break semantics of the options scanner -/

theorem branchStep_trace (t : ItemType) (v : List Nat) (st : OptSt)
    (c : Bool) (g : Nat) (st' : OptSt)
    (h : branchStep t v st = some (c, g, st')) : st'.trace = st.trace := by
  cases t <;> simp only [branchStep] at h
  all_goals repeat' split at h
  all_goals
    first
      | exact Option.noConfusion h
      | (simp only [Option.some.injEq, Prod.mk.injEq] at h
         obtain ⟨-, -, h3⟩ := h
         rw [← h3])

theorem scanOptionsLoop_prefix (it : List OTuple → OTuple → Control) :
    ∀ (fuel : Nat) (l : Scanner) (st : OptSt) (T : List OTuple) (O F : Bool),
      scanOptionsLoop it fuel l st = (T, O, F) → ∃ ext, T = st.trace ++ ext := by
  intro fuel
  induction fuel with
  | zero =>
    intro l st T O F h
    rw [scanOptionsLoop] at h
    injection h with h1 h2
    subst h1
    exact ⟨[], (List.append_nil _).symm⟩
  | succ fuel ih =>
    intro l st T O F h
    rw [scanOptionsLoop] at h
    split at h
    · split at h
      · injection h with h1 h2
        subst h1
        exact ⟨[⟨st.index, st.key, st.param, st.value⟩], rfl⟩
      · injection h with h1 h2
        subst h1
        exact ⟨[], (List.append_nil _).symm⟩
    · split at h
      · injection h with h1 h2
        subst h1
        exact ⟨[], (List.append_nil _).symm⟩
      next l' hnext call g st' hbs =>
        split at h
        · simp only [] at h
          split at h
          · injection h with h1 h2
            subst h1
            exact ⟨[⟨st.index, st'.key, st'.param, st'.value⟩], rfl⟩
          · obtain ⟨ext2, he⟩ := ih _ _ _ _ _ h
            refine ⟨⟨st.index, st'.key, st'.param, st'.value⟩ :: ext2, ?_⟩
            rw [he]
            simp
          · obtain ⟨ext2, he⟩ := ih _ _ _ _ _ h
            refine ⟨⟨st.index, st'.key, st'.param, st'.value⟩ :: ext2, ?_⟩
            rw [he]
            simp
        · obtain ⟨ext2, he⟩ := ih _ _ _ _ _ h
          rw [branchStep_trace _ _ _ _ _ _ hbs] at he
          exact ⟨ext2, he⟩

theorem prefix_take_getD (l1 : List OTuple) (t : OTuple) (ext : List OTuple) (d : OTuple) :
    (l1 ++ [t] ++ ext).take l1.length = l1 ∧ (l1 ++ [t] ++ ext).getD l1.length d = t := by
  constructor
  · rw [List.append_assoc]
    exact List.take_left l1 _
  · rw [List.append_assoc, List.getD_eq_getElem?_getD,
      List.getElem?_append_right (Nat.le_refl _)]
    simp

theorem scanOptionsLoop_break (it : List OTuple → OTuple → Control) (d : OTuple) :
    ∀ (fuel : Nat) (l : Scanner) (st : OptSt) (T : List OTuple) (O F : Bool) (i : Nat),
      scanOptionsLoop it fuel l st = (T, O, F) →
      st.trace.length ≤ i → i < T.length →
      it (T.take i) (T.getD i d) = .ctlBreak →
      F = false →
      O = true ∧ T.length = i + 1 := by
  intro fuel
  induction fuel with
  | zero =>
    intro l st T O F i h hhist hlen hit hfl
    rw [scanOptionsLoop] at h
    injection h with h1 h2
    subst h1
    omega
  | succ fuel ih =>
    intro l st T O F i h hhist hlen hit hfl
    rw [scanOptionsLoop] at h
    split at h
    · split at h
      · injection h with h1 h2
        injection h2 with h2a h2b
        subst h2b
        exact absurd hfl (by simp)
      · injection h with h1 h2
        subst h1
        omega
    · split at h
      · injection h with h1 h2
        subst h1
        omega
      next l' hnext call g st' hbs =>
        split at h
        · simp only [] at h
          split at h
          next hc =>
            injection h with h1 h2
            injection h2 with h2a h2b
            subst h1
            subst h2a
            refine ⟨rfl, ?_⟩
            have : i = st.trace.length := by
              simp only [List.length_append, List.length_cons, List.length_nil] at hlen
              omega
            simp [this]
          next hc =>
            by_cases hcase : st.trace.length + 1 ≤ i
            · refine ih _ _ _ _ _ _ h ?_ hlen hit hfl
              simp only [List.length_append, List.length_cons, List.length_nil]
              omega
            · have hieq : i = st.trace.length := by omega
              obtain ⟨ext, hext⟩ := scanOptionsLoop_prefix it fuel _ _ _ _ _ h
              have hext' : T =
                  st.trace ++ [⟨st.index, st'.key, st'.param, st'.value⟩] ++ ext := hext
              have hp := prefix_take_getD st.trace ⟨st.index, st'.key, st'.param, st'.value⟩ ext d
              rw [hext', hieq, hp.1, hp.2] at hit
              rw [hit] at hc
              exact Control.noConfusion hc
          next hc =>
            by_cases hcase : st.trace.length + 1 ≤ i
            · refine ih _ _ _ _ _ _ h ?_ hlen hit hfl
              simp only [List.length_append, List.length_cons, List.length_nil]
              omega
            · have hieq : i = st.trace.length := by omega
              obtain ⟨ext, hext⟩ := scanOptionsLoop_prefix it fuel _ _ _ _ _ h
              have hext' : T =
                  st.trace ++ [⟨st.index, st'.key, st'.param, st'.value⟩] ++ ext := hext
              have hp := prefix_take_getD st.trace ⟨st.index, st'.key, st'.param, st'.value⟩ ext d
              rw [hext', hieq, hp.1, hp.2] at hit
              rw [hit] at hc
              exact Control.noConfusion hc
        · refine ih _ _ _ _ _ _ h ?_ hlen hit hfl
          rw [branchStep_trace _ _ _ _ _ _ hbs]
          exact hhist

/-- C9 amended: for every input and every callback, if the callback
returns Break on a tuple delivered from inside the scanning loop (every
delivery except the end-of-input flush, i.e. whenever the flush flag of
the result is false), ScanOptions returns true immediately: that tuple
is the last one delivered (no further callback invocations, the rest of
the input is never scanned) and the parse is reported well-formed.  On
the end-of-input flush the callback's control value is ignored (see the
counterexample). -/
theorem c9_break_semantics (data : List Nat) (it : List OTuple → OTuple → Control) (i : Nat)
    (hlen : i < (ScanOptions it data).1.length)
    (hit : it ((ScanOptions it data).1.take i)
        ((ScanOptions it data).1.getD i ⟨0, [], none, none⟩) = .ctlBreak)
    (hfl : (ScanOptions it data).2.2 = false) :
    (ScanOptions it data).2.1 = true ∧ (ScanOptions it data).1.length = i + 1 := by
  have h := scanOptionsLoop_break it ⟨0, [], none, none⟩ (data.length + 1) (NewScanner data)
    ⟨false, 0, 0, [], none, none, false, []⟩
    (ScanOptions it data).1 (ScanOptions it data).2.1 (ScanOptions it data).2.2 i
  exact h rfl (Nat.zero_le i) hlen hit hfl

/-- C9 witness: on `a,b` with a callback that always returns Break, the
break happens at the first delivered tuple and ScanOptions returns true
with exactly that one tuple delivered. -/
theorem c9_break_semantics_witness :
    0 < (ScanOptions cbBreakAll [97, 44, 98]).1.length ∧
    cbBreakAll ((ScanOptions cbBreakAll [97, 44, 98]).1.take 0)
        ((ScanOptions cbBreakAll [97, 44, 98]).1.getD 0 ⟨0, [], none, none⟩) = .ctlBreak ∧
    (ScanOptions cbBreakAll [97, 44, 98]).2.2 = false ∧
    ((ScanOptions cbBreakAll [97, 44, 98]).2.1 = true ∧
      (ScanOptions cbBreakAll [97, 44, 98]).1.length = 0 + 1) :=
  ⟨by decide, by decide, by decide,
    c9_break_semantics [97, 44, 98] cbBreakAll 0 (by decide) (by decide) (by decide)⟩

/-! ## ScanUntil terminates at the first quote not preceded by a backslash -/

theorem indexOf?_some (l : List Nat) (c j : Nat) (h : indexOf? l c = some j) :
    j < l.length ∧ l.getD j 0 = c ∧ ∀ m, m < j → l.getD m 0 ≠ c := by
  induction l generalizing j with
  | nil => exact Option.noConfusion h
  | cons x xs ih =>
    rw [indexOf?] at h
    split at h
    next hx =>
      injection h with h1
      subst h1
      exact ⟨Nat.succ_pos _, hx, fun m hm => absurd hm (Nat.not_lt_zero m)⟩
    next hx =>
      cases hj : indexOf? xs c with
      | none => rw [hj] at h; exact Option.noConfusion h
      | some j' =>
        rw [hj] at h
        injection h with h1
        subst h1
        obtain ⟨hl, hg, hb⟩ := ih j' hj
        refine ⟨Nat.succ_lt_succ hl, hg, ?_⟩
        intro m hm
        cases m with
        | zero => simpa using hx
        | succ m' => exact hb m' (Nat.lt_of_succ_lt_succ hm)

theorem indexOf?_none (l : List Nat) (c : Nat) (h : indexOf? l c = none) :
    ∀ m, m < l.length → l.getD m 0 ≠ c := by
  induction l with
  | nil => intro m hm; exact absurd hm (by simp)
  | cons x xs ih =>
    rw [indexOf?] at h
    split at h
    next hx => exact Option.noConfusion h
    next hx =>
      intro m hm
      cases hj : indexOf? xs c with
      | some j' => rw [hj] at h; exact Option.noConfusion h
      | none =>
        cases m with
        | zero => simpa using hx
        | succ m' => exact ih hj m' (Nat.lt_of_succ_lt_succ hm)

theorem indexOf?_none_iff (l : List Nat) (c : Nat) :
    indexOf? l c = none ↔ c ∉ l := by
  induction l with
  | nil => simp [indexOf?]
  | cons x xs ih =>
    rw [indexOf?]
    constructor
    · intro h
      split at h
      next hx => exact Option.noConfusion h
      next hx =>
        intro hmem
        rcases List.mem_cons.mp hmem with h1 | h1
        · exact hx h1.symm
        · cases hj : indexOf? xs c with
          | some j' => rw [hj] at h; exact Option.noConfusion h
          | none => exact (ih.mp hj) h1
    · intro hmem
      split
      next hx => exact absurd (hx ▸ List.mem_cons_self x xs) hmem
      next hx =>
        rw [ih.mpr fun h1 => hmem (List.mem_cons_of_mem x h1)]
        rfl

theorem getD_drop (l : List Nat) (n k : Nat) : (l.drop n).getD k 0 = l.getD (n + k) 0 := by
  rw [List.getD_eq_getElem?_getD, List.getD_eq_getElem?_getD, List.getElem?_drop]

theorem indexOfFrom_some (data : List Nat) (c n i : Nat) (h : indexOfFrom data c n = some i) :
    n ≤ i ∧ i < data.length ∧ data.getD i 0 = c ∧
      ∀ m, n ≤ m → m < i → data.getD m 0 ≠ c := by
  unfold indexOfFrom at h
  cases hj : indexOf? (data.drop n) c with
  | none => rw [hj] at h; exact Option.noConfusion h
  | some j =>
    rw [hj] at h
    injection h with h1
    have h1' : j + n = i := h1
    obtain ⟨hl, hg, hb⟩ := indexOf?_some _ _ _ hj
    rw [List.length_drop] at hl
    subst h1'
    refine ⟨Nat.le_add_left n j, by omega, ?_, ?_⟩
    · rw [getD_drop] at hg
      rw [Nat.add_comm n j] at hg
      exact hg
    · intro m hnm hmi
      have hbm := hb (m - n) (by omega)
      rw [getD_drop] at hbm
      have harith : n + (m - n) = m := by omega
      rw [harith] at hbm
      exact hbm

theorem indexOfFrom_none (data : List Nat) (c n : Nat) (h : indexOfFrom data c n = none) :
    ∀ m, n ≤ m → m < data.length → data.getD m 0 ≠ c := by
  unfold indexOfFrom at h
  cases hj : indexOf? (data.drop n) c with
  | some j => rw [hj] at h; exact Option.noConfusion h
  | none =>
    intro m hnm hml
    have := indexOf?_none _ _ hj (m - n) (by rw [List.length_drop]; omega)
    rw [getD_drop] at this
    have harith : n + (m - n) = m := by omega
    rw [harith] at this
    exact this

theorem natRange_succ (s n : Nat) : natRange s (n + 1) = s :: natRange (s + 1) n := rfl

theorem find?_natRange_skip (p : Nat → Bool) :
    ∀ (kk n K : Nat), kk ≤ K → (∀ j, n ≤ j → j < n + kk → p j = false) →
      (natRange n K).find? p = (natRange (n + kk) (K - kk)).find? p := by
  intro kk
  induction kk with
  | zero => intro n K _ _; rw [Nat.add_zero, Nat.sub_zero]
  | succ kk ih =>
    intro n K hle hfalse
    cases K with
    | zero => exact absurd hle (by omega)
    | succ K' =>
      rw [natRange_succ, List.find?_cons, hfalse n (Nat.le_refl n) (by omega)]
      have := ih (n + 1) K' (by omega) (fun j hj1 hj2 => hfalse j (by omega) (by omega))
      rw [this]
      have h1 : n + 1 + kk = n + (kk + 1) := by omega
      have h2 : K' - kk = K' + 1 - (kk + 1) := by omega
      rw [h1, h2]

theorem find?_natRange_none (p : Nat → Bool) :
    ∀ (K n : Nat), (∀ j, n ≤ j → j < n + K → p j = false) →
      (natRange n K).find? p = none := by
  intro K
  induction K with
  | zero => intro n _; rfl
  | succ K' ih =>
    intro n hfalse
    rw [natRange_succ, List.find?_cons, hfalse n (Nat.le_refl n) (by omega)]
    exact ih (n + 1) (fun j hj1 hj2 => hfalse j (by omega) (by omega))


theorem unescapedHit_false_of_ne (data : List Nat) (c j : Nat)
    (h : data.getD j 0 ≠ c) : unescapedHit data c j = false := by
  unfold unescapedHit
  rw [decide_eq_false h, Bool.false_and]

theorem unescapedHit_false_escaped (data : List Nat) (c i : Nat)
    (h0 : i ≠ 0) (h92 : data.getD (i - 1) 0 = 92) : unescapedHit data c i = false := by
  unfold unescapedHit
  rw [decide_eq_false h0, decide_eq_false (not_not_intro h92), Bool.false_or,
    Bool.and_false]

theorem unescapedHit_true (data : List Nat) (c i : Nat)
    (hg : data.getD i 0 = c) (h2 : i = 0 ∨ data.getD (i - 1) 0 ≠ 92) :
    unescapedHit data c i = true := by
  unfold unescapedHit
  rw [decide_eq_true hg, Bool.true_and]
  rcases h2 with h2 | h2
  · rw [decide_eq_true h2, Bool.true_or]
  · rw [decide_eq_true h2, Bool.or_true]

theorem scanUntilLoop_eq_spec (data : List Nat) (c : Nat) :
    ∀ (fuel n : Nat), n ≤ data.length → data.length - n < fuel →
      scanUntilLoop data c fuel n =
        (natRange n (data.length - n)).find? (unescapedHit data c) := by
  intro fuel
  induction fuel with
  | zero => intro n _ hf; exact absurd hf (Nat.not_lt_zero _)
  | succ fuel ih =>
    intro n hn hf
    cases hio : indexOfFrom data c n with
    | none =>
      have hno := indexOfFrom_none data c n hio
      have hnone := find?_natRange_none (unescapedHit data c) (data.length - n) n
        (fun j hj1 hj2 => unescapedHit_false_of_ne data c j (hno j hj1 (by omega)))
      rw [scanUntilLoop, hio, hnone]
    | some i =>
      obtain ⟨hni, hil, hgi, hbefore⟩ := indexOfFrom_some data c n i hio
      rw [scanUntilLoop, hio]
      simp only []
      by_cases hcond : i = 0 ∨ data.getD (i - 1) 0 ≠ 92
      · rw [if_pos hcond]
        have hskip := find?_natRange_skip (unescapedHit data c) (i - n) n
          (data.length - n) (by omega)
          (fun j hj1 hj2 => unescapedHit_false_of_ne data c j (hbefore j hj1 (by omega)))
        rw [hskip]
        have harith : n + (i - n) = i := by omega
        have harith2 : data.length - n - (i - n) = data.length - i := by omega
        rw [harith, harith2]
        have harith3 : data.length - i = (data.length - i - 1) + 1 := by omega
        rw [harith3, natRange_succ, List.find?_cons,
          unescapedHit_true data c i hgi hcond]
      · rw [if_neg hcond]
        push_neg at hcond
        obtain ⟨hne0, heq92⟩ := hcond
        have hskip := find?_natRange_skip (unescapedHit data c) (i + 1 - n) n
          (data.length - n) (by omega)
          (fun j hj1 hj2 => by
            by_cases hji : j = i
            · subst hji
              exact unescapedHit_false_escaped data c j hne0 heq92
            · exact unescapedHit_false_of_ne data c j (hbefore j hj1 (by omega)))
        rw [hskip]
        have harith : n + (i + 1 - n) = i + 1 := by omega
        have harith2 : data.length - n - (i + 1 - n) = data.length - (i + 1) := by omega
        rw [harith, harith2]
        exact ih (i + 1) (by omega) (by omega)

/-- ScanUntil agrees with the amended first-unescaped-quote rule. -/
theorem ScanUntil_eq_amendedSpec (data : List Nat) (c : Nat) :
    ScanUntil data c = scanUntilAmendedSpec data c := by
  unfold ScanUntil scanUntilAmendedSpec
  rw [scanUntilLoop_eq_spec data c (data.length + 1) 0 (Nat.zero_le _) (by omega)]
  rw [Nat.sub_zero]

/-- RemoveByte allocates (takes the copying path) exactly when the byte
occurs in the data. -/
theorem RemoveByte_alloc_iff (data : List Nat) (c : Nat) :
    (RemoveByte data c).2 = true ↔ c ∈ data := by
  unfold RemoveByte
  cases h : indexOf? data c with
  | none =>
    constructor
    · intro hfalse; exact Bool.noConfusion hfalse
    · intro hmem; exact absurd hmem ((indexOf?_none_iff data c).mp h)
  | some j =>
    constructor
    · intro _
      by_contra hmem
      rw [(indexOf?_none_iff data c).mpr hmem] at h
      exact Option.noConfusion h
    · intro _; rfl

/-- C5 counterexample: in the quoted-string body `a\\` followed by a
closing quote (bytes `97 92 92 34`), the closing quote at index 3 is
preceded by an even number (two) of consecutive backslashes, so the
claimed rule terminates the string there (`some 3`), but `ScanUntil`
finds no terminator at all (the scanner then errors out on the whole
quoted string `"a\\"`). -/
theorem c5_parity_counterexample :
    ScanUntil [97, 92, 92, 34] 34 = none ∧
    backslashRun [97, 92, 92, 34] 3 = 2 ∧
    scanUntilClaimSpec [97, 92, 92, 34] 34 = some 3 ∧
    ((NewScanner [34, 97, 92, 92, 34]).Next).2 = false ∧
    ((NewScanner [34, 97, 92, 92, 34]).Next).1.err = true := by
  decide

/-- C5 amended: quoted-string scanning terminates at the first closing
quote that is not immediately preceded by a backslash (a quote whose
immediately-preceding byte is a backslash is literal, regardless of the
parity of the backslash run), and the unescaping step allocates a fresh
buffer exactly when at least one backslash is present in the body. -/
theorem c5_scanuntil_amended (data : List Nat) (c : Nat) :
    ScanUntil data c = scanUntilAmendedSpec data c ∧
    ((RemoveByte data c).2 = true ↔ c ∈ data) :=
  ⟨ScanUntil_eq_amendedSpec data c, RemoveByte_alloc_iff data c⟩

/-! ## Order-independence of multimap equality for key-determined values -/

theorem bytesCmp_eq_iff : ∀ (a b : List Nat), bytesCmp a b = .eq ↔ a = b := by
  intro a
  induction a with
  | nil =>
    intro b
    cases b with
    | nil => simp [bytesCmp]
    | cons y ys => simp [bytesCmp]
  | cons x xs ih =>
    intro b
    cases b with
    | nil => simp [bytesCmp]
    | cons y ys =>
      rw [bytesCmp]
      by_cases h1 : x < y
      · rw [if_pos h1]
        constructor
        · intro h; exact Ordering.noConfusion h
        · intro h
          injection h with h2 h3
          omega
      · rw [if_neg h1]
        by_cases h2 : y < x
        · rw [if_pos h2]
          constructor
          · intro h; exact Ordering.noConfusion h
          · intro h
            injection h with h3 h4
            omega
        · rw [if_neg h2]
          have hxy : x = y := by omega
          subst hxy
          rw [ih ys]
          constructor
          · intro h; rw [h]
          · intro h
            injection h

theorem bytesCmp_lt_iff_gt : ∀ (a b : List Nat), bytesCmp a b = .lt ↔ bytesCmp b a = .gt := by
  intro a
  induction a with
  | nil =>
    intro b
    cases b with
    | nil => simp [bytesCmp]
    | cons y ys => simp [bytesCmp]
  | cons x xs ih =>
    intro b
    cases b with
    | nil => simp [bytesCmp]
    | cons y ys =>
      rw [bytesCmp, bytesCmp]
      by_cases h1 : x < y
      · rw [if_pos h1, if_neg (by omega : ¬ y < x), if_pos h1]
        simp
      · rw [if_neg h1]
        by_cases h2 : y < x
        · rw [if_pos h2, if_pos h2]
          simp
        · rw [if_neg h2, if_neg h1, if_neg h2]
          exact ih ys

theorem bytesCmp_trans_lt :
    ∀ (a b c : List Nat), bytesCmp a b = .lt → bytesCmp b c = .lt → bytesCmp a c = .lt := by
  intro a
  induction a with
  | nil =>
    intro b c hab hbc
    cases c with
    | nil =>
      cases b with
      | nil => exact Ordering.noConfusion hab
      | cons y ys => rw [bytesCmp] at hbc; exact Ordering.noConfusion hbc
    | cons z zs => rw [bytesCmp]
  | cons x xs ih =>
    intro b c hab hbc
    cases b with
    | nil => rw [bytesCmp] at hab; exact Ordering.noConfusion hab
    | cons y ys =>
      cases c with
      | nil => rw [bytesCmp] at hbc; exact Ordering.noConfusion hbc
      | cons z zs =>
        rw [bytesCmp] at hab hbc ⊢
        by_cases h1 : x < y
        · by_cases h2 : y < z
          · rw [if_pos (by omega : x < z)]
          · rw [if_neg h2] at hbc
            by_cases h3 : z < y
            · rw [if_pos h3] at hbc; exact Ordering.noConfusion hbc
            · have : y = z := by omega
              subst this
              rw [if_pos h1]
        · rw [if_neg h1] at hab
          by_cases h2 : y < x
          · rw [if_pos h2] at hab; exact Ordering.noConfusion hab
          · have hxy : x = y := by omega
            subst hxy
            rw [if_neg h1] at hab
            by_cases h3 : x < z
            · rw [if_pos h3]
            · rw [if_neg h3] at hbc
              by_cases h4 : z < x
              · rw [if_pos h4] at hbc; exact Ordering.noConfusion hbc
              · rw [if_neg h4] at hbc ⊢
                rw [if_neg h3]
                exact ih ys zs hab hbc

theorem pairLess_asymm (x y : PPair) (h : pairLess x y = true) : pairLess y x = false := by
  unfold pairLess at h ⊢
  rw [decide_eq_true_eq] at h
  have hgt : bytesCmp y.key x.key = .gt := (bytesCmp_lt_iff_gt _ _).mp h
  rw [hgt]
  rfl

theorem pairLess_antisymm_keys (x y : PPair)
    (h1 : pairLess x y = false) (h2 : pairLess y x = false) : x.key = y.key := by
  unfold pairLess at h1 h2
  rw [decide_eq_false_iff_not] at h1 h2
  cases hc : bytesCmp x.key y.key with
  | eq => exact (bytesCmp_eq_iff _ _).mp hc
  | lt => exact absurd hc h1
  | gt => exact absurd ((bytesCmp_lt_iff_gt _ _).mpr hc) h2

theorem pairLess_trans (x y z : PPair)
    (h1 : pairLess x y = true) (h2 : pairLess y z = true) : pairLess x z = true := by
  unfold pairLess at h1 h2 ⊢
  rw [decide_eq_true_eq] at h1 h2 ⊢
  exact bytesCmp_trans_lt _ _ _ h1 h2

/-- The sortedness relation: an earlier pair is not strictly greater
than a later one. -/
def pairGe (a b : PPair) : Prop := pairLess b a = false

theorem insertPair_perm (x : PPair) : ∀ l : List PPair, (insertPair x l).Perm (x :: l) := by
  intro l
  induction l with
  | nil => exact List.Perm.refl _
  | cons y ys ih =>
    rw [insertPair]
    split
    · exact List.Perm.refl _
    · exact (ih.cons y).trans (List.Perm.swap x y ys)

theorem insertPair_mem (x : PPair) (l : List PPair) (z : PPair)
    (h : z ∈ insertPair x l) : z = x ∨ z ∈ l := by
  have := (insertPair_perm x l).mem_iff.mp h
  simpa using this

theorem insertPair_sorted (x : PPair) :
    ∀ l : List PPair, l.Pairwise pairGe → (insertPair x l).Pairwise pairGe := by
  intro l
  induction l with
  | nil => intro _; exact List.pairwise_singleton _ _
  | cons y ys ih =>
    intro hs
    obtain ⟨hy, hys⟩ := List.pairwise_cons.mp hs
    rw [insertPair]
    split
    next hless =>
      refine List.pairwise_cons.mpr ⟨?_, hs⟩
      intro z hz
      rcases List.mem_cons.mp hz with hz | hz
      · subst hz
        exact pairLess_asymm x z hless
      · unfold pairGe
        by_cases hzx : pairLess z x = true
        · have := pairLess_trans z x y hzx hless
          rw [hy z hz] at this
          exact Bool.noConfusion this
        · exact Bool.eq_false_iff.mpr hzx
    next hless =>
      refine List.pairwise_cons.mpr ⟨?_, ih hys⟩
      intro z hz
      rcases insertPair_mem x ys z hz with hz | hz
      · subst hz
        exact Bool.eq_false_iff.mpr hless
      · exact hy z hz

theorem sortPairs_perm_gen :
    ∀ (l acc : List PPair),
      (List.foldl (fun acc x => insertPair x acc) acc l).Perm (acc ++ l) := by
  intro l
  induction l with
  | nil => intro acc; simp
  | cons x xs ih =>
    intro acc
    rw [List.foldl_cons]
    refine (ih (insertPair x acc)).trans ?_
    have h1 : (insertPair x acc ++ xs).Perm ((x :: acc) ++ xs) :=
      (insertPair_perm x acc).append_right xs
    refine h1.trans ?_
    exact List.perm_middle.symm

theorem sortPairs_perm (l : List PPair) : (sortPairs l).Perm l := by
  have := sortPairs_perm_gen l []
  simpa [sortPairs] using this

theorem sortPairs_sorted_gen :
    ∀ (l acc : List PPair), acc.Pairwise pairGe →
      (List.foldl (fun acc x => insertPair x acc) acc l).Pairwise pairGe := by
  intro l
  induction l with
  | nil => intro acc h; exact h
  | cons x xs ih =>
    intro acc h
    rw [List.foldl_cons]
    exact ih (insertPair x acc) (insertPair_sorted x acc h)

theorem sortPairs_sorted (l : List PPair) : (sortPairs l).Pairwise pairGe :=
  sortPairs_sorted_gen l [] (List.Pairwise.nil)

theorem ppair_ext (x y : PPair) (hk : x.key = y.key) (hv : x.value = y.value) : x = y := by
  cases x
  cases y
  simp only [] at hk hv
  rw [hk, hv]

theorem sorted_perm_kdv_eq :
    ∀ (l1 l2 : List PPair), l1.Pairwise pairGe → l2.Pairwise pairGe → l1.Perm l2 →
      (∀ p ∈ l1, ∀ q ∈ l1, p.key = q.key → p.value = q.value) → l1 = l2 := by
  intro l1
  induction l1 with
  | nil =>
    intro l2 _ _ hp _
    exact hp.nil_eq
  | cons x xs ih =>
    intro l2 hs1 hs2 hp hkdv
    cases l2 with
    | nil => exact absurd hp.length_eq (by simp)
    | cons y ys =>
      obtain ⟨hx1, hxs1⟩ := List.pairwise_cons.mp hs1
      obtain ⟨hy2, hys2⟩ := List.pairwise_cons.mp hs2
      have hxy : x = y := by
        by_cases heq : x = y
        · exact heq
        · have hxmem : x ∈ y :: ys := hp.mem_iff.mp (List.mem_cons_self x xs)
          have hymem : y ∈ x :: xs := hp.symm.mem_iff.mp (List.mem_cons_self y ys)
          have hxys : x ∈ ys := by
            rcases List.mem_cons.mp hxmem with h | h
            · exact absurd h heq
            · exact h
          have hyxs : y ∈ xs := by
            rcases List.mem_cons.mp hymem with h | h
            · exact absurd h.symm heq
            · exact h
          have h1 : pairLess x y = false := hy2 x hxys
          have h2 : pairLess y x = false := hx1 y hyxs
          have hkeys : x.key = y.key := by
            have := pairLess_antisymm_keys y x h2 h1
            exact this.symm
          have hvals : x.value = y.value :=
            hkdv x (List.mem_cons_self x xs) y hymem hkeys
          exact ppair_ext x y hkeys hvals
      subst hxy
      have htail : xs.Perm ys := hp.cons_inv
      have hkdv' : ∀ p ∈ xs, ∀ q ∈ xs, p.key = q.key → p.value = q.value :=
        fun p hpm q hqm hk =>
          hkdv p (List.mem_cons_of_mem x hpm) q (List.mem_cons_of_mem x hqm) hk
      rw [ih ys hxs1 hys2 htail hkdv']

theorem pairListEq_refl : ∀ l : List PPair, pairListEq l l = true := by
  intro l
  induction l with
  | nil => rfl
  | cons x xs ih =>
    rw [pairListEq, if_pos ⟨rfl, rfl⟩]
    exact ih

theorem buildParams_step (xs : List PPair) (x : PPair) :
    buildParams (xs ++ [x]) = (buildParams xs).Set x.key x.value := by
  unfold buildParams
  rw [List.foldl_append]
  rfl

theorem buildParams_inv (ps : List PPair) :
    (buildParams ps).pos = min ps.length 8 ∧
    (buildParams ps).arr = ps.take 8 ∧
    (buildParams ps).dyn = (if ps.length ≤ 8 then none else some ps) := by
  induction ps using List.reverseRecOn with
  | nil => exact ⟨rfl, rfl, rfl⟩
  | append_singleton xs x ih =>
    obtain ⟨hpos, harr, hdyn⟩ := ih
    rw [buildParams_step]
    unfold Parameters.Set
    simp only []
    by_cases hlt : (buildParams xs).pos < 8
    · have hlen : xs.length < 8 := by rw [hpos] at hlt; omega
      rw [if_pos hlt]
      refine ⟨?_, ?_, ?_⟩
      · simp only [hpos, List.length_append, List.length_cons, List.length_nil]
        omega
      · simp only [harr]
        rw [List.take_of_length_le (by omega : xs.length ≤ 8),
          List.take_of_length_le (by simp; omega)]
      · simp only [hdyn]
        rw [if_pos (by omega : xs.length ≤ 8),
          if_pos (by simp; omega)]
    · have hlen : 8 ≤ xs.length := by rw [hpos] at hlt; omega
      rw [if_neg hlt]
      by_cases hcase : xs.length ≤ 8
      · have hlen8 : xs.length = 8 := by omega
        have hdyn' : (buildParams xs).dyn = none := by rw [hdyn, if_pos hcase]
        rw [hdyn']
        simp only []
        refine ⟨?_, ?_, ?_⟩
        · simp only [hpos, List.length_append, List.length_cons, List.length_nil]
          omega
        · simp only [harr]
          rw [List.take_of_length_le (by omega : xs.length ≤ 8),
            List.take_append_of_le_length (by omega)]
          rw [List.take_of_length_le (by omega : xs.length ≤ 8)]
        · rw [if_neg (by simp; omega)]
          rw [harr, List.take_of_length_le (by omega : xs.length ≤ 8)]
      · have hdyn' : (buildParams xs).dyn = some xs := by rw [hdyn, if_neg hcase]
        rw [hdyn']
        simp only []
        refine ⟨?_, ?_, ?_⟩
        · simp only [hpos, List.length_append, List.length_cons, List.length_nil]
          omega
        · simp only [harr]
          rw [List.take_append_of_le_length (by omega)]
        · rw [if_neg (by simp; omega)]

theorem buildParams_dataL (ps : List PPair) : (buildParams ps).dataL = ps := by
  obtain ⟨hpos, harr, hdyn⟩ := buildParams_inv ps
  unfold Parameters.dataL
  rw [hdyn]
  by_cases hle : ps.length ≤ 8
  · rw [if_pos hle]
    simp only [harr, hpos]
    rw [List.take_of_length_le (by omega : ps.length ≤ 8)]
    rw [List.take_of_length_le (by omega : ps.length ≤ min ps.length 8)]
  · rw [if_neg hle]

theorem buildParams_dyn_none_iff (ps : List PPair) :
    (buildParams ps).dyn = none ↔ ps.length ≤ 8 := by
  obtain ⟨-, -, hdyn⟩ := buildParams_inv ps
  rw [hdyn]
  by_cases hle : ps.length ≤ 8
  · rw [if_pos hle]; simp [hle]
  · rw [if_neg hle]; simp [hle]

/-- C6 amended: two Parameter multimaps built by `Set` from the same
multiset of pairs in different insertion orders compare `Equal` whenever
pairs sharing a key also share the value (in particular whenever all
keys are distinct).  With duplicate keys carrying different values the
key-only sort can leave the values in different relative orders, and
`Equal` can return false — see the counterexample. -/
theorem c6_equal_perm (ps qs : List PPair) (hperm : ps.Perm qs)
    (hkdv : ∀ p ∈ ps, ∀ q ∈ ps, p.key = q.key → p.value = q.value) :
    Parameters.Equal (buildParams ps) (buildParams qs) = true := by
  have hlen : ps.length = qs.length := hperm.length_eq
  have hsorteq : sortPairs ps = sortPairs qs := by
    refine sorted_perm_kdv_eq (sortPairs ps) (sortPairs qs)
      (sortPairs_sorted ps) (sortPairs_sorted qs)
      ((sortPairs_perm ps).trans (hperm.trans (sortPairs_perm qs).symm)) ?_
    intro p hpm q hqm hk
    exact hkdv p ((sortPairs_perm ps).mem_iff.mp hpm)
      q ((sortPairs_perm ps).mem_iff.mp hqm) hk
  unfold Parameters.Equal Parameters.equalFull
  rw [if_pos ?_]
  · rw [buildParams_dataL, buildParams_dataL]
    rw [if_neg (by omega : ¬ ps.length ≠ qs.length)]
    simp only [hsorteq]
    exact pairListEq_refl (sortPairs qs)
  · by_cases hle : ps.length ≤ 8
    · left
      constructor
      · rw [(buildParams_dyn_none_iff ps).mpr hle]; rfl
      · rw [(buildParams_dyn_none_iff qs).mpr (by omega)]; rfl
    · right
      constructor
      · rw [Option.isSome_iff_ne_none]
        intro hnone
        exact hle ((buildParams_dyn_none_iff ps).mp hnone)
      · rw [Option.isSome_iff_ne_none]
        intro hnone
        exact absurd ((buildParams_dyn_none_iff qs).mp hnone) (by omega)

/-- C6 witness: two concrete two-pair multimaps with distinct keys,
built in opposite insertion orders, compare Equal. -/
theorem c6_equal_perm_witness :
    ([⟨[97], [49]⟩, ⟨[98], [50]⟩] : List PPair).Perm [⟨[98], [50]⟩, ⟨[97], [49]⟩] ∧
    (∀ p ∈ ([⟨[97], [49]⟩, ⟨[98], [50]⟩] : List PPair),
      ∀ q ∈ ([⟨[97], [49]⟩, ⟨[98], [50]⟩] : List PPair),
        p.key = q.key → p.value = q.value) ∧
    Parameters.Equal (buildParams [⟨[97], [49]⟩, ⟨[98], [50]⟩])
      (buildParams [⟨[98], [50]⟩, ⟨[97], [49]⟩]) = true :=
  ⟨List.Perm.swap _ _ _, by decide,
    c6_equal_perm [⟨[97], [49]⟩, ⟨[98], [50]⟩] [⟨[98], [50]⟩, ⟨[97], [49]⟩]
      (List.Perm.swap _ _ _) (by decide)⟩
